import Mathlib

/-!
Verification of the micromanubot reference/figure reconciliation and
template-assembly pipeline.

Shallow embedding of the core of the repository:
* `src/micromanubot/cite.py`   — bibliography reconciler and citation-key extraction
* `src/umb/figures.py`         — figure reconciler, alias derivation, figure-key extraction
* `src/micromanubot/build.py`  — section rewriting and template assembly

Python strings are modelled as `String` (or `List Char` where character-level
algorithms are involved); BibTeX libraries as association lists of entries;
Python dicts built from lists as last-wins lookups over the list; the
filesystem as an explicit list of existing file names; remote DOI fetching as
a pure oracle `fetch : String → String`.  Fallible code returns `Except`.
-/

namespace Micromanubot

/-- Left brace character, written via its code point. -/
def lbraceChar : Char := Char.ofNat 123

/-! ### String helpers (Python `str` methods used by the source) -/

/-- Python `str.strip()` on a character list: drop leading and trailing
whitespace. -/
def trimChars (l : List Char) : List Char :=
  ((l.dropWhile Char.isWhitespace).reverse.dropWhile Char.isWhitespace).reverse

/-- Python `str.strip()`. -/
def trimStr (s : String) : String := String.mk (trimChars s.data)

/-- Python string comparison (`<`, code-point lexicographic) on character
lists, as used by `sorted`. -/
def strLtChars : List Char → List Char → Bool
  | [], [] => false
  | [], _ :: _ => true
  | _ :: _, [] => false
  | a :: as, b :: bs => if a < b then true else if b < a then false else strLtChars as bs

/-- Python `a <= b` on strings. -/
def strLe (a b : String) : Bool := !(strLtChars b.data a.data)

/-- Python `key.lstrip("@")`: remove all leading `'@'` characters
(used in `Bibliography.reconcile_citations` and `ManuscriptSection.process`). -/
def stripAts (k : String) : String := String.mk (k.data.dropWhile (fun c => c == '@'))

/-- Python `key.lstrip("@").strip()` as in `Bibliography.reconcile_citations`:
drop leading `'@'` characters, then surrounding whitespace. -/
def stripKey (k : String) : String := trimStr (stripAts k)

/-- Python `"@" in key`: the key contains an `'@'` anywhere. -/
def isMarked (k : String) : Bool := k.data.contains '@'


/-! ### Bibliography reconciler (`src/micromanubot/cite.py`) -/

/-- A BibTeX entry: its citation key and its remaining content.
`bibtexparser` entries are keyed records; only the key participates in the
reconciliation logic, the body is carried opaquely. -/
structure BibEntry where
  key : String
  body : String
deriving DecidableEq, Repr

/-- `library.entries_dict[k]`: a Python dict built by iterating the entry
list, so on duplicate keys the last entry wins. -/
def lookupBib (lib : List BibEntry) (k : String) : Option BibEntry :=
  lib.reverse.find? (fun e => e.key == k)

/-- What one iteration of the `Bibliography.reconcile_citations` loop does
with a key: add an entry to the output, queue a stripped reference for
pulling, or record the key as missing. -/
inductive KeyRes where
  | entry (e : BibEntry)
  | pull (q : String)
  | missing (k : String)
deriving DecidableEq, Repr

/-- The body of the `Bibliography.reconcile_citations` loop (cite.py lines
52-67) for one key.  A key containing `'@'` is DOI-marked: its stripped form
is looked up in the cache, then in the manual set, and queued for pulling if
absent from both.  A plain key is looked up in the manual set (manual
precedence), then the cache, and is missing if absent from both. -/
def resolveKey (cache manual : List BibEntry) (key : String) : KeyRes :=
  if isMarked key then
    match lookupBib cache (stripKey key) with
    | some e => .entry e
    | none =>
      match lookupBib manual (stripKey key) with
      | some e => .entry e
      | none => .pull (stripKey key)
  else
    match lookupBib manual key with
    | some e => .entry e
    | none =>
      match lookupBib cache key with
      | some e => .entry e
      | none => .missing key

/-- The output contribution of a key resolution. -/
def KeyRes.entryPart : KeyRes → Option BibEntry
  | .entry e => some e
  | _ => none

/-- The `references_to_pull` contribution of a key resolution. -/
def KeyRes.pullPart : KeyRes → Option String
  | .pull q => some q
  | _ => none

/-- The `missing_keys` contribution of a key resolution. -/
def KeyRes.missPart : KeyRes → Option String
  | .missing k => some k
  | _ => none

/-- The resolution loop of `Bibliography.reconcile_citations` (cite.py lines
52-67).  Iterates the sorted observed keys; returns
`(output entries, references_to_pull, missing_keys)`, each in iteration
order. -/
def reconcileLoop (cache manual : List BibEntry) :
    List String → List BibEntry × List String × List String
  | [] => ([], [], [])
  | key :: rest =>
    let r := reconcileLoop cache manual rest
    match resolveKey cache manual key with
    | .entry e => (e :: r.1, r.2.1, r.2.2)
    | .pull q => (r.1, q :: r.2.1, r.2.2)
    | .missing k => (r.1, r.2.1, k :: r.2.2)

/-- Outcome of `Bibliography.reconcile_citations`: the DOI fetch requests
actually issued, and either the missing-key listing (the abort path) or the
pair (output library, cache contents after the run). -/
structure BibOutcome where
  requests : List String
  result : Except (List String) (List BibEntry × List BibEntry)
deriving Repr

/-- `Bibliography.reconcile_citations` (cite.py lines 38-78).  `keys` is
`sorted(self.unique_keys)`; `fetch` is the DOI oracle
(`pull_doi_references` keys each fetched entry by its stripped key).  If any
key is missing the run raises with the full missing list before any fetch;
otherwise the pulled entries are appended to the output and to the cache
(the cache file is rewritten only when something was pulled). -/
def reconcileCitations (cache manual : List BibEntry) (keys : List String)
    (fetch : String → String) : BibOutcome :=
  let r := reconcileLoop cache manual keys
  if r.2.2 = [] then
    if r.2.1 = [] then
      ⟨[], .ok (r.1, cache)⟩
    else
      let newEntries := r.2.1.map (fun k => ⟨k, fetch k⟩)
      ⟨r.2.1, .ok (r.1 ++ newEntries, cache ++ newEntries)⟩
  else
    ⟨[], .error r.2.2⟩

/-! ### Figure reconciler (`src/umb/figures.py`) -/

/-- `FigureSpec` (figures.py lines 17-24): old alias (the symbolic key in the
markup), new alias (the canonical build-relative path), optional source URL
and optional resolved local file path.  The overridden `__hash__` is the
`(old_alias, new_alias)` pair, but pydantic equality compares all fields. -/
structure FigureSpec where
  old_alias : String
  new_alias : String
  url : Option String
  local_path : Option String
deriving DecidableEq, Repr

/-- The Python `hash` of a `FigureSpec` (figures.py lines 23-24): determined
by the `(old_alias, new_alias)` pair only. -/
def FigureSpec.hashPair (f : FigureSpec) : String × String := (f.old_alias, f.new_alias)

/-- Stable insertion of `x` into a list, after every element whose `old_alias`
is `≤ x.old_alias` (used to model Python `sorted(..., key=lambda x: x.old_alias)`). -/
def insertByOldAlias (x : FigureSpec) : List FigureSpec → List FigureSpec
  | [] => [x]
  | y :: ys =>
    if strLe y.old_alias x.old_alias then y :: insertByOldAlias x ys else x :: y :: ys

/-- `sorted(figs, key=lambda x: x.old_alias)`: stable sort by old alias. -/
def sortByOldAlias (l : List FigureSpec) : List FigureSpec :=
  l.foldl (fun acc x => insertByOldAlias x acc) []

/-- `FiguresCache.__add__` (figures.py lines 37-40):
`set(self.figures + other.figures)` then sort by `old_alias`.  Python `set`
deduplicates by equality (pydantic field-wise equality; the overridden hash
only buckets), modelled by `List.dedup`. -/
def figAdd (xs ys : List FigureSpec) : List FigureSpec :=
  sortByOldAlias ((xs ++ ys).dedup)

/-- `FiguresCache.alias_to_figure` (figures.py lines 33-35): a dict built with
`{str(figure.old_alias): figure for figure in self.figures}`, so on duplicate
old aliases the last figure wins. -/
def aliasToFigure (figs : List FigureSpec) (ref : String) : Option FigureSpec :=
  figs.reverse.find? (fun f => f.old_alias == ref)

/-! URL handling.  `validators.url` and `urllib.parse.urlparse` are external
libraries (not part of this repository); they are modelled for http(s) URLs:
a URL is valid when it carries an `http://` or `https://` scheme followed by
a nonempty host, and its path component is what follows the host up to a
query or fragment. -/

/-- The remainder of `s` after an `http://` or `https://` scheme, if any. -/
def afterScheme (s : String) : Option (List Char) :=
  if "https://".data.isPrefixOf s.data then some (s.data.drop 8)
  else if "http://".data.isPrefixOf s.data then some (s.data.drop 7)
  else none

/-- The host part of a URL remainder: everything up to `/`, `?` or `#`. -/
def urlHost (rest : List Char) : List Char :=
  rest.takeWhile (fun c => !(c == '/' || c == '?' || c == '#'))

/-- Model of `validators.url`: an http(s) scheme followed by a nonempty host. -/
def urlValid (s : String) : Bool :=
  match afterScheme s with
  | some rest => !(urlHost rest).isEmpty
  | none => false

/-- Model of `urllib.parse.urlparse(s).path`: what follows the host, up to a
query or fragment. -/
def urlPath (s : String) : String :=
  match afterScheme s with
  | some rest =>
    String.mk ((rest.drop (urlHost rest).length).takeWhile
      (fun c => !(c == '?' || c == '#')))
  | none => ""

/-- Model of `pathlib.Path(p).name`: the last path component, after dropping
empty and `.` components; `""` when there is none. -/
def pathName (p : String) : String :=
  String.mk (((((p.data.splitOn '/')).filter
    (fun c => !(c.isEmpty || c == ['.']))).getLast?).getD [])

/-- `ManuscriptFigures._get_fig_name` (figures.py lines 94-103).  `fs` is the
set of paths for which `pathlib.Path(key).is_file()` holds.  A valid URL
yields the last segment of its path component; an existing local path yields
its filename; anything else is an error. -/
def getFigName (fs : List String) (key : String) : Except String String :=
  if urlValid key then .ok (pathName (urlPath key))
  else if key ∈ fs then .ok (pathName key)
  else .error ("Invalid key: " ++ key)

/-- `ManuscriptFigures._make_alias` (figures.py lines 105-114):
`str(Path("images") / filename)`. -/
def makeAlias (fs : List String) (key : String) : Except String String :=
  match getFigName fs key with
  | .ok n => .ok ("images/" ++ n)
  | .error e => .error e

/-- The `FigureSpec` built for a queued download in
`ManuscriptFigures.reconcile_figures` (figures.py lines 132-138): old alias
is the reference, new alias its canonical alias, url the reference itself,
and local path the reconciler-local cache directory joined with the derived
filename.  The reference is a valid URL here, so `_get_fig_name` takes the
URL branch. -/
def downloadSpec (cacheDir ref als : String) : FigureSpec :=
  ⟨ref, als, some ref, some (cacheDir ++ "/" ++ pathName (urlPath ref))⟩

/-- What one iteration of the `ManuscriptFigures.reconcile_figures` loop does
with a (reference, alias) pair: copy a cached file into the build directory,
queue a download, or record the reference as missing. -/
inductive FigRes where
  | copy (cp : String × String)
  | download (f : FigureSpec)
  | missing (r : String)
deriving DecidableEq, Repr

/-- The body of the `ManuscriptFigures.reconcile_figures` loop (figures.py
lines 124-141) for one (reference, alias) pair: a reference found in the
cache with a local path is copied to `build_dir / alias`; found without a
local path it is missing; not found but a valid URL it is queued for
download; otherwise missing. -/
def resolveFig (cacheFigs : List FigureSpec) (cacheDir buildDir : String)
    (p : String × String) : FigRes :=
  match aliasToFigure cacheFigs p.1 with
  | some fig =>
    match fig.local_path with
    | none => .missing p.1
    | some lp => .copy (lp, buildDir ++ "/" ++ p.2)
  | none =>
    if urlValid p.1 then .download (downloadSpec cacheDir p.1 p.2)
    else .missing p.1

/-- The copy contribution of a figure resolution. -/
def FigRes.copyPart : FigRes → Option (String × String)
  | .copy cp => some cp
  | _ => none

/-- The `to_download` contribution of a figure resolution. -/
def FigRes.dlPart : FigRes → Option FigureSpec
  | .download f => some f
  | _ => none

/-- The `missing` contribution of a figure resolution. -/
def FigRes.missPart : FigRes → Option String
  | .missing r => some r
  | _ => none

/-- The loop of `ManuscriptFigures.reconcile_figures` (figures.py lines
122-141) over `self.reference_to_alias` items.  Returns
`(copies performed, to_download, missing)`, each in iteration order. -/
def figLoop (cacheFigs : List FigureSpec) (cacheDir buildDir : String) :
    List (String × String) → List (String × String) × List FigureSpec × List String
  | [] => ([], [], [])
  | p :: rest =>
    let r := figLoop cacheFigs cacheDir buildDir rest
    match resolveFig cacheFigs cacheDir buildDir p with
    | .copy cp => (cp :: r.1, r.2.1, r.2.2)
    | .download f => (r.1, f :: r.2.1, r.2.2)
    | .missing k => (r.1, r.2.1, k :: r.2.2)

/-- Outcome of `ManuscriptFigures.reconcile_figures`: the file copies
performed (source path, destination path), the download requests issued, and
either the missing-reference listing or the cache contents after the run. -/
structure FigOutcome where
  copies : List (String × String)
  downloads : List FigureSpec
  result : Except (List String) (List FigureSpec)
deriving Repr

/-- `ManuscriptFigures.reconcile_figures` (figures.py lines 116-154).  On a
non-empty missing set the run raises with the full listing; cache-resolved
copies made inside the loop have already happened, and no download is
issued.  Otherwise queued figures are downloaded, merged into the cache
(which is rewritten only when something was downloaded) and copied to the
build directory under their new alias. -/
def reconcileFigures (cacheFigs : List FigureSpec) (cacheDir buildDir : String)
    (refAlias : List (String × String)) : FigOutcome :=
  let r := figLoop cacheFigs cacheDir buildDir refAlias
  if r.2.2 = [] then
    if r.2.1 = [] then
      ⟨r.1, [], .ok cacheFigs⟩
    else
      let dlCopies := r.2.1.map
        (fun f => (f.local_path.getD "", buildDir ++ "/" ++ f.new_alias))
      ⟨r.1 ++ dlCopies, r.2.1, .ok (figAdd cacheFigs r.2.1)⟩
  else
    ⟨r.1, [], .error r.2.2⟩

/-! ### Markup scanner (`extract_keys` in cite.py and figures.py)

`pylatexenc` parse trees are modelled by `LatexNode`.  A macro node carries
`nodeargd`: `none` for a missing parsed-arguments record, otherwise the
`argspec` character list together with `argnlist`, whose entries may be
absent (`none`).  Only character nodes carry `chars`; accessing `chars` or
`nodelist` on any other node is a Python `AttributeError`, modelled as an
error result. -/

inductive LatexNode where
  | charsNode (chars : String)
  | groupNode (nodelist : List LatexNode)
  | macroNode (macroname : String) (nodeargd : Option (List Char × List (Option LatexNode)))
  | envNode (environmentname : String) (nodelist : List LatexNode)
deriving Repr

/-- `extract_keys` for citations (cite.py lines 81-115): check the node has
parsed arguments, that the argspec contains a mandatory `\x7b` argument, that
argspec and argument list have equal length; take the argument at the first
`\x7b` position, require its node list to be exactly one chars node; split
its chars on commas, strip each piece, and deduplicate. -/
def extractCiteKeys (node : LatexNode) : Except String (Finset String) :=
  match node with
  | .macroNode _ none => .error "Citation node has no arguments"
  | .macroNode _ (some (argspec, argnlist)) =>
    if lbraceChar ∈ argspec then
      if argspec.length = argnlist.length then
        match argnlist[argspec.indexOf lbraceChar]? with
        | some (some (.groupNode nl)) =>
          match nl with
          | [kn] =>
            match kn with
            | .charsNode s =>
              .ok (((s.data.splitOn ',').map (fun cs => trimStr (String.mk cs))).toFinset)
            | _ => .error "Citation key node has no chars"
          | _ => .error "Invalid citation key node"
        | _ => .error "Citation key group has no nodelist"
      else .error "Invalid citation node"
    else .error "Invalid citation node argspec"
  | _ => .error "Citation node has no arguments"

/-- `extract_includegraphics_key` (figures.py lines 187-207): same argument
checks as citation extraction, but the single chars run is returned verbatim
(no splitting, no trimming). -/
def extractIncludegraphicsKey (node : LatexNode) : Except String String :=
  match node with
  | .macroNode _ none => .error "No arguments found in includegraphics node"
  | .macroNode _ (some (argspec, argnlist)) =>
    if lbraceChar ∈ argspec then
      if argspec.length = argnlist.length then
        match argnlist[argspec.indexOf lbraceChar]? with
        | some (some (.groupNode nl)) =>
          match nl with
          | [kn] =>
            match kn with
            | .charsNode s => .ok s
            | _ => .error "Includegraphics key node has no chars"
          | _ => .error "Invalid key group"
        | _ => .error "Includegraphics key group has no nodelist"
      else .error "Mismatch between argspec and arguments"
    else .error "Invalid includegraphics node argspec"
  | _ => .error "No arguments found in includegraphics node"

/-- The loop of `extract_keys` for figures (figures.py lines 157-184) over a
figure environment's child node list: recurse into `subfigure` environments,
extract the key of each `includegraphics` macro node, union the results;
any extraction error aborts. -/
def extractFigKeys : List LatexNode → Except String (Finset String)
  | [] => .ok ∅
  | .envNode en nl :: rest =>
    if en = "subfigure" then
      match extractFigKeys nl with
      | .error e => .error e
      | .ok s1 =>
        match extractFigKeys rest with
        | .error e => .error e
        | .ok s2 => .ok (s1 ∪ s2)
    else extractFigKeys rest
  | .macroNode mn args :: rest =>
    if mn = "includegraphics" then
      match extractIncludegraphicsKey (.macroNode mn args) with
      | .error e => .error e
      | .ok k =>
        match extractFigKeys rest with
        | .error e => .error e
        | .ok s2 => .ok (insert k s2)
    else extractFigKeys rest
  | _ :: rest => extractFigKeys rest

/-- `extract_keys` for a figure environment node (figures.py lines 157-184):
walk its child node list. -/
def extractFigEnvKeys (node : LatexNode) : Except String (Finset String) :=
  match node with
  | .envNode _ nl => extractFigKeys nl
  | _ => .error "Node is not a figure node"

/-! ### Section rewriting (`ManuscriptSection.process`, build.py lines 178-203)

The rewriting phase is Python `str.replace` applied to the whole raw text:
every occurrence of each observed key containing `'@'` is replaced by its
`lstrip("@")` form, then every occurrence of each observed figure reference
by its alias.  `str.replace` is modelled on `List Char`; the recursion is
fuelled by the text length (each step consumes at least one character when
the pattern is nonempty, so `length + 1` fuel is never exhausted). -/

/-- Leftmost, non-overlapping replacement of a nonempty `pat` by `rep`,
structured on fuel. -/
def replaceGo (pat rep : List Char) : Nat → List Char → List Char
  | _, [] => []
  | 0, s => s
  | fuel + 1, c :: rest =>
    if pat <+: (c :: rest) then rep ++ replaceGo pat rep fuel ((c :: rest).drop pat.length)
    else c :: replaceGo pat rep fuel rest

/-- Python `s.replace(pat, rep)`: for an empty pattern `rep` is interleaved
at every position; otherwise leftmost non-overlapping occurrences are
replaced. -/
def replaceAll (s pat rep : List Char) : List Char :=
  if pat = [] then rep ++ s.flatMap (fun c => c :: rep)
  else replaceGo pat rep (s.length + 1) s

/-- The rewriting phase of `ManuscriptSection.process` (build.py lines
195-201): `keys` is `bib.unique_keys` (accumulated across sections) and
`refAlias` is `fig.reference_to_alias`.  Keys containing `'@'` are replaced
by their `lstrip("@")` forms, then references by their aliases, each by
global string replacement over the whole text. -/
def sectionRewrite (raw : List Char) (keys : List (List Char))
    (refAlias : List (List Char × List Char)) : List Char :=
  let keysToReplace := keys.filter (fun k => k.contains '@')
  let s1 := keysToReplace.foldl (fun s k => replaceAll s k (k.dropWhile (fun c => c == '@'))) raw
  refAlias.foldl (fun s ra => replaceAll s ra.1 ra.2) s1

/-! ### Template assembly (`build.py`) -/

/-- Whether a file name matches the glob `[0-9]*.tex` used by
`find_manuscript_files` (build.py line 131): first character a digit and the
name ends with `.tex`. -/
def isSectionFile (name : String) : Bool :=
  (name.data.head?.elim false Char.isDigit) && ".tex".data.isSuffixOf name.data

/-- Stable insertion into a string list sorted lexicographically. -/
def insertStr (x : String) : List String → List String
  | [] => [x]
  | y :: ys => if strLe y x then y :: insertStr x ys else x :: y :: ys

/-- Python `sorted` on file names (lexicographic, stable). -/
def sortStrs (l : List String) : List String :=
  l.foldl (fun acc x => insertStr x acc) []

/-- `find_manuscript_files` (build.py lines 125-143): the sorted
`[0-9]*.tex` files of the content directory (error if none), with
`abstract.tex` prepended and `supplement.tex` appended when present.
`contentFiles` lists the names present in the content directory. -/
def findManuscriptFiles (contentFiles : List String) : Except String (List String) :=
  let mainFiles := sortStrs (contentFiles.filter isSectionFile)
  if mainFiles = [] then
    .error "No main files found in the content directory."
  else
    let withAbstract :=
      if "abstract.tex" ∈ contentFiles then "abstract.tex" :: mainFiles else mainFiles
    if "supplement.tex" ∈ contentFiles then
      .ok (withAbstract ++ ["supplement.tex"])
    else
      .ok withAbstract

/-- The filter in `build_latex` (build.py lines 70-75): only files whose name
starts with a digit are collected into `built_main_files`. -/
def builtMainFiles (files : List String) : List String :=
  files.filter (fun f => f.data.head?.elim false Char.isDigit)

/-- The `@main` slot expansion of `MainTemplate.process` (build.py lines
321-325): one transclusion statement per built main file, in order. -/
def mainSlot (files : List String) : String :=
  files.foldl (fun acc f => acc ++ "\\input\x7b" ++ f ++ "\x7d\n") ""

/-- The `@supplement` slot expansion of `MainTemplate.process` (build.py
lines 326-336): a heading plus transclusion when the supplement file exists,
the empty string otherwise. -/
def supplementSlot (supplementExists : Bool) : String :=
  if supplementExists then
    "\\section*\x7bSupplementary Materials\x7d\n\\input\x7bsupplement.tex\x7d"
  else ""

/-! ### General helper lemmas -/

instance {e a : Type _} [DecidableEq e] [DecidableEq a] : DecidableEq (Except e a)
  | .error x, .error y =>
    if h : x = y then .isTrue (by rw [h]) else .isFalse (fun hc => by cases hc; exact h rfl)
  | .error _, .ok _ => .isFalse (fun hc => by cases hc)
  | .ok _, .error _ => .isFalse (fun hc => by cases hc)
  | .ok x, .ok y =>
    if h : x = y then .isTrue (by rw [h]) else .isFalse (fun hc => by cases hc; exact h rfl)



theorem reconcileLoop_eq (cache manual : List BibEntry) (keys : List String) :
    reconcileLoop cache manual keys =
      (keys.filterMap (fun k => (resolveKey cache manual k).entryPart),
       keys.filterMap (fun k => (resolveKey cache manual k).pullPart),
       keys.filterMap (fun k => (resolveKey cache manual k).missPart)) := by
  induction keys with
  | nil => rfl
  | cons k rest ih =>
    simp only [reconcileLoop, ih, List.filterMap_cons]
    cases h : resolveKey cache manual k <;>
      simp [KeyRes.entryPart, KeyRes.pullPart, KeyRes.missPart]

theorem figLoop_eq (cacheFigs : List FigureSpec) (cacheDir buildDir : String)
    (refAlias : List (String × String)) :
    figLoop cacheFigs cacheDir buildDir refAlias =
      (refAlias.filterMap (fun p => (resolveFig cacheFigs cacheDir buildDir p).copyPart),
       refAlias.filterMap (fun p => (resolveFig cacheFigs cacheDir buildDir p).dlPart),
       refAlias.filterMap (fun p => (resolveFig cacheFigs cacheDir buildDir p).missPart)) := by
  induction refAlias with
  | nil => rfl
  | cons p rest ih =>
    simp only [figLoop, ih, List.filterMap_cons]
    cases h : resolveFig cacheFigs cacheDir buildDir p <;>
      simp [FigRes.copyPart, FigRes.dlPart, FigRes.missPart]

theorem find?_eq_some_of_unique {α} (p : α → Bool) (l : List α) (v : α)
    (h1 : v ∈ l) (hv : p v = true) (h2 : ∀ x ∈ l, p x = true → x = v) :
    l.find? p = some v := by
  induction l with
  | nil => cases h1
  | cons a l ih =>
    by_cases ha : p a = true
    · have hav : a = v := h2 a (by simp) ha
      subst hav
      simp [List.find?_cons_of_pos, ha]
    · rw [List.find?_cons_of_neg _ (by simpa using ha)]
      rcases List.mem_cons.mp h1 with h | h
      · exact absurd (h ▸ hv) ha
      · exact ih h (fun x hx hpx => h2 x (List.mem_cons_of_mem _ hx) hpx)

/-- First-some choice between two optional values. -/
def orElseO {β : Type _} (a b : Option β) : Option β :=
  match a with
  | some x => some x
  | none => b

theorem filterMap_append_orElse_perm {α β} (F1 F2 : α → Option β) (l : List α)
    (h : ∀ x ∈ l, F1 x = none ∨ F2 x = none) :
    (l.filterMap F1 ++ l.filterMap F2).Perm
      (l.filterMap (fun x => orElseO (F1 x) (F2 x))) := by
  induction l with
  | nil => simp
  | cons a l ih =>
    have ha := h a (by simp)
    have ih := ih (fun x hx => h x (List.mem_cons_of_mem _ hx))
    rcases h1 : F1 a with _ | b1
    · rcases h2 : F2 a with _ | b2
      · simp only [List.filterMap_cons, h1, h2, orElseO]
        exact ih
      · simp only [List.filterMap_cons, h1, h2, orElseO]
        exact List.perm_middle.trans (ih.cons b2)
    · have h2 : F2 a = none := by
        rcases ha with ha | ha
        · exact absurd h1 (by simp [ha])
        · exact ha
      simp only [List.filterMap_cons, h1, h2, orElseO]
      exact ih.cons b1

theorem insertByOldAlias_perm (x : FigureSpec) (l : List FigureSpec) :
    (insertByOldAlias x l).Perm (x :: l) := by
  induction l with
  | nil => simp [insertByOldAlias]
  | cons y ys ih =>
    simp only [insertByOldAlias]
    cases h : strLe y.old_alias x.old_alias
    · simp [h]
    · simp only [h, if_true]
      exact (ih.cons y).trans (List.Perm.swap x y ys)

theorem sortByOldAlias_perm (l : List FigureSpec) : (sortByOldAlias l).Perm l := by
  suffices h : ∀ (l acc : List FigureSpec),
      (l.foldl (fun a x => insertByOldAlias x a) acc).Perm (l ++ acc) by
    simpa using h l []
  intro l
  induction l with
  | nil => simp
  | cons x l ih =>
    intro acc
    refine ((ih _).trans ?_)
    refine (List.Perm.append_left l (insertByOldAlias_perm x acc)).trans ?_
    exact List.perm_middle

theorem mem_figAdd (xs ys : List FigureSpec) (f : FigureSpec) :
    f ∈ figAdd xs ys ↔ f ∈ xs ++ ys := by
  unfold figAdd
  rw [(sortByOldAlias_perm _).mem_iff, List.mem_dedup]

theorem nodup_figAdd (xs ys : List FigureSpec) : (figAdd xs ys).Nodup := by
  unfold figAdd
  exact (sortByOldAlias_perm _).nodup_iff.mpr (List.nodup_dedup _)

theorem replaceGo_of_not_infix (pat rep : List Char) :
    ∀ (fuel : Nat) (s : List Char), ¬ pat <:+: s → replaceGo pat rep fuel s = s := by
  intro fuel
  induction fuel with
  | zero => intro s _; cases s <;> rfl
  | succ n ih =>
    intro s h
    cases s with
    | nil => rfl
    | cons c rest =>
      have hp : ¬ pat <+: (c :: rest) := fun hpre => h hpre.isInfix
      have hr : ¬ pat <:+: rest :=
        fun hinf => h (hinf.trans (List.suffix_cons c rest).isInfix)
      simp only [replaceGo, if_neg hp]
      exact congrArg (c :: ·) (ih rest hr)

theorem replaceAll_of_not_infix (s pat rep : List Char) (h : ¬ pat <:+: s) :
    replaceAll s pat rep = s := by
  have hne : pat ≠ [] := by
    intro he
    exact h (he ▸ List.nil_infix)
  simp only [replaceAll, if_neg hne]
  exact replaceGo_of_not_infix pat rep (s.length + 1) s h

theorem fold_keys_frame :
    ∀ (l : List (List Char)) (s : List Char), (∀ k ∈ l, ¬ k <:+: s) →
      l.foldl (fun t k => replaceAll t k (k.dropWhile (fun c => c == '@'))) s = s := by
  intro l
  induction l with
  | nil => intro s _; rfl
  | cons k l ih =>
    intro s h
    have hk := replaceAll_of_not_infix s k (k.dropWhile (fun c => c == '@')) (h k (by simp))
    simp only [List.foldl_cons, hk]
    exact ih s (fun k2 hk2 => h k2 (List.mem_cons_of_mem _ hk2))

theorem fold_refs_frame :
    ∀ (l : List (List Char × List Char)) (s : List Char), (∀ ra ∈ l, ¬ ra.1 <:+: s) →
      l.foldl (fun t ra => replaceAll t ra.1 ra.2) s = s := by
  intro l
  induction l with
  | nil => intro s _; rfl
  | cons ra l ih =>
    intro s h
    have hk := replaceAll_of_not_infix s ra.1 ra.2 (h ra (by simp))
    simp only [List.foldl_cons, hk]
    exact ih s (fun r2 hr2 => h r2 (List.mem_cons_of_mem _ hr2))

/-! ### Claims -/

/-- **C5.** Figure alias derivation is a pure function of the reference
string (given the set `fs` of existing local files): a valid URL maps to
`images/` followed by the last segment of its path component; a local path
naming an existing file maps to `images/` followed by its filename; anything
else fails.  Concretely, `https://example.com/a/b/fig1.png` maps to
`images/fig1.png`, existing `plots/out.png` maps to `images/out.png`, and
non-existing `plots/out.png` fails. -/
theorem C5_alias_derivation :
    (∀ (fs : List String) (key : String), urlValid key = true →
      makeAlias fs key = .ok ("images/" ++ pathName (urlPath key)))
    ∧ (∀ (fs : List String) (key : String), urlValid key = false → key ∈ fs →
      makeAlias fs key = .ok ("images/" ++ pathName key))
    ∧ (∀ (fs : List String) (key : String), urlValid key = false → key ∉ fs →
      makeAlias fs key = .error ("Invalid key: " ++ key))
    ∧ makeAlias [] "https://example.com/a/b/fig1.png" = .ok "images/fig1.png"
    ∧ makeAlias ["plots/out.png"] "plots/out.png" = .ok "images/out.png"
    ∧ makeAlias [] "plots/out.png" = .error "Invalid key: plots/out.png" := by
  refine ⟨?_, ?_, ?_, by decide, by decide, by decide⟩
  · intro fs key h
    simp [makeAlias, getFigName, h]
  · intro fs key h hmem
    simp [makeAlias, getFigName, h, hmem]
  · intro fs key h hmem
    simp [makeAlias, getFigName, h, hmem]

theorem C5_alias_derivation_witness :
    urlValid "https://example.com/a/b/fig1.png" = true ∧
      makeAlias [] "https://example.com/a/b/fig1.png" =
        .ok ("images/" ++ pathName (urlPath "https://example.com/a/b/fig1.png")) :=
  ⟨by decide, C5_alias_derivation.1 [] "https://example.com/a/b/fig1.png" (by decide)⟩

/-- **C7.** With content files `1.intro.tex` and `2.results.tex` and no
abstract or supplement file, the located manuscript files are exactly those
two in numeric order, the main slot expands to exactly their two
transclusion statements in that order, and the supplement slot expands to
the empty string.  Moreover only files whose name starts with a digit ever
reach the main slot. -/
theorem C7_template_scenario :
    (∀ (files : List String) (f : String), f ∈ builtMainFiles files →
      f.data.head?.elim false Char.isDigit = true)
    ∧ findManuscriptFiles ["2.results.tex", "1.intro.tex"] =
        .ok ["1.intro.tex", "2.results.tex"]
    ∧ builtMainFiles ["1.intro.tex", "2.results.tex"] =
        ["1.intro.tex", "2.results.tex"]
    ∧ mainSlot ["1.intro.tex", "2.results.tex"] =
        "\\input\x7b1.intro.tex\x7d\n\\input\x7b2.results.tex\x7d\n"
    ∧ ("supplement.tex" ∈ ["2.results.tex", "1.intro.tex"]) = False
    ∧ supplementSlot false = "" := by
  refine ⟨?_, by decide, by decide, by decide, by simp, rfl⟩
  intro files f hf
  exact (List.mem_filter.mp hf).2

theorem C7_template_scenario_witness :
    "1.intro.tex" ∈ builtMainFiles ["1.intro.tex", "2.results.tex"] ∧
      "1.intro.tex".data.head?.elim false Char.isDigit = true :=
  ⟨by decide, C7_template_scenario.1 ["1.intro.tex", "2.results.tex"] "1.intro.tex" (by decide)⟩

/-- **C8 counterexample.** Two figure references with the same
`(old_alias, new_alias)` pair (hence the same Python hash) but different
`url` fields both survive a cache merge: `FiguresCache.__add__` deduplicates
by Python set membership, which also requires pydantic field-wise equality,
not by the hash pair alone. -/
theorem C8_counterexample :
    FigureSpec.hashPair ⟨"a.png", "images/a.png", none, some "cache/a.png"⟩ =
      FigureSpec.hashPair ⟨"a.png", "images/a.png", some "http://h/a.png", some "cache/a.png"⟩
    ∧ (⟨"a.png", "images/a.png", none, some "cache/a.png"⟩ : FigureSpec) ≠
      ⟨"a.png", "images/a.png", some "http://h/a.png", some "cache/a.png"⟩
    ∧ figAdd [⟨"a.png", "images/a.png", none, some "cache/a.png"⟩]
        [⟨"a.png", "images/a.png", some "http://h/a.png", some "cache/a.png"⟩] =
      [⟨"a.png", "images/a.png", none, some "cache/a.png"⟩,
       ⟨"a.png", "images/a.png", some "http://h/a.png", some "cache/a.png"⟩] := by
  refine ⟨rfl, by decide, by decide⟩

/-- **C8 amended.** Merging two figure caches deduplicates by full structural
equality of entries (all four fields): the merged cache contains an entry
exactly when one of the inputs does, and contains no two structurally equal
entries.  Entries that agree only on the `(old_alias, new_alias)` hash pair
but differ in `url` or `local_path` both survive (see the counterexample). -/
theorem C8_dedup_full_equality :
    (∀ (xs ys : List FigureSpec) (f : FigureSpec), f ∈ figAdd xs ys ↔ f ∈ xs ++ ys)
    ∧ (∀ xs ys : List FigureSpec, (figAdd xs ys).Nodup) :=
  ⟨mem_figAdd, nodup_figAdd⟩

/-- **C9 counterexample.** Section rewriting is a global string replacement:
a section whose raw text contains no backslash (hence no citation macro and
no figure environment at all) is still changed when an observed DOI-marked
key occurs in its prose. -/
theorem C9_counterexample :
    ("see @abc!".data.contains (Char.ofNat 92)) = false
    ∧ sectionRewrite "see @abc!".data ["@abc".data] [] = "see abc!".data
    ∧ sectionRewrite "see @abc!".data ["@abc".data] [] ≠ "see @abc!".data := by
  refine ⟨by decide, by decide, by decide⟩

/-- **C9 amended.** `ManuscriptSection.process` rewrites by global textual
substitution over the whole section text; the guaranteed frame property is:
a section text containing no occurrence of any observed key containing `'@'`
and no occurrence of any observed figure reference is unchanged. -/
theorem C9_frame :
    ∀ (raw : List Char) (keys : List (List Char)) (refAlias : List (List Char × List Char)),
      (∀ k ∈ keys, k.contains '@' = true → ¬ k <:+: raw) →
      (∀ ra ∈ refAlias, ¬ ra.1 <:+: raw) →
      sectionRewrite raw keys refAlias = raw := by
  intro raw keys refAlias hkeys hrefs
  show refAlias.foldl (fun s ra => replaceAll s ra.1 ra.2)
      ((keys.filter (fun k => k.contains '@')).foldl
        (fun s k => replaceAll s k (k.dropWhile (fun c => c == '@'))) raw) = raw
  have h1 : (keys.filter (fun k => k.contains '@')).foldl
      (fun s k => replaceAll s k (k.dropWhile (fun c => c == '@'))) raw = raw := by
    apply fold_keys_frame
    intro k hk
    have hk2 := List.mem_filter.mp hk
    exact hkeys k hk2.1 hk2.2
  rw [h1]
  exact fold_refs_frame refAlias raw hrefs

theorem C9_frame_witness :
    (∀ k ∈ [("@x".data : List Char)], k.contains '@' = true → ¬ k <:+: "hello".data) ∧
      sectionRewrite "hello".data ["@x".data] [("z".data, "w".data)] = "hello".data :=
  ⟨by decide, C9_frame "hello".data ["@x".data] [("z".data, "w".data)]
    (by decide) (by decide)⟩

/-- **C10.** A citation key is classified as DOI-marked exactly when it
contains `'@'` anywhere (`"@" in key`), not only as a leading prefix;
stripping removes all leading `'@'` characters (`lstrip("@")`, plus
surrounding whitespace via `.strip()` during reconciliation), so a key whose
only `'@'` is interior is classified marked yet unchanged by stripping: it
is routed to the remote-fetch queue under its own unchanged form, and the
section-rewriting pass replaces it by itself. -/
theorem stripAts_of_head_ne (k : String) (h : k.data.head? ≠ some '@') :
    stripAts k = k := by
  unfold stripAts
  cases k with
  | mk l =>
    cases l with
    | nil => rfl
    | cons c rest =>
      have hc : (c == '@') = false := by
        simpa using fun he => h (by simp [he])
      simp [List.dropWhile, hc]

theorem C10_marker_classification :
    (∀ k : String, isMarked k = true ↔ '@' ∈ k.data)
    ∧ (∀ k : String, k.data.head? ≠ some '@' → stripAts k = k)
    ∧ (∀ k : String, k.data.head? ≠ some '@' → trimStr k = k → stripKey k = k)
    ∧ isMarked "a@b" = true
    ∧ stripKey "a@b" = "a@b"
    ∧ reconcileLoop [] [] ["a@b"] = ([], ["a@b"], [])
    ∧ sectionRewrite "x a@b y".data ["a@b".data] [] = "x a@b y".data := by
  refine ⟨?_, stripAts_of_head_ne, ?_, by decide, by decide, by decide, by decide⟩
  · intro k
    simp [isMarked, List.contains, List.elem_iff]
  · intro k h ht
    unfold stripKey
    rw [stripAts_of_head_ne k h, ht]

theorem C10_marker_classification_witness :
    ("a@b" : String).data.head? ≠ some '@' ∧ stripAts "a@b" = "a@b" :=
  ⟨by decide, C10_marker_classification.2.1 "a@b" (by decide)⟩

/-- **C3.** Citation key extraction.  For a well-formed citation macro node
whose mandatory bracketed argument holds exactly one text run of comma
separated keys, extraction returns exactly the trimmed, deduplicated set of
those keys; nodes with no arguments, no mandatory-argument marker in the
argspec, an argspec/argument-list length mismatch, or a key group without
exactly one node, are hard errors. -/
theorem C3_citation_key_extraction :
    (∀ (nm : String) (argspec : List Char) (argnlist : List (Option LatexNode))
        (parts : List (List Char)),
      lbraceChar ∈ argspec → argspec.length = argnlist.length →
      argnlist[argspec.indexOf lbraceChar]? =
        some (some (.groupNode [.charsNode (String.mk ([','].intercalate parts))])) →
      parts ≠ [] → (∀ p ∈ parts, ',' ∉ p) →
      extractCiteKeys (.macroNode nm (some (argspec, argnlist))) =
        .ok ((parts.map (fun cs => trimStr (String.mk cs))).toFinset))
    ∧ (∀ nm : String,
        extractCiteKeys (.macroNode nm none) = .error "Citation node has no arguments")
    ∧ (∀ (nm : String) (argspec : List Char) (argnlist : List (Option LatexNode)),
        lbraceChar ∉ argspec →
        extractCiteKeys (.macroNode nm (some (argspec, argnlist))) =
          .error "Invalid citation node argspec")
    ∧ (∀ (nm : String) (argspec : List Char) (argnlist : List (Option LatexNode)),
        lbraceChar ∈ argspec → argspec.length ≠ argnlist.length →
        extractCiteKeys (.macroNode nm (some (argspec, argnlist))) =
          .error "Invalid citation node")
    ∧ (∀ (nm : String) (argspec : List Char) (argnlist : List (Option LatexNode))
        (nl : List LatexNode),
        lbraceChar ∈ argspec → argspec.length = argnlist.length →
        argnlist[argspec.indexOf lbraceChar]? = some (some (.groupNode nl)) →
        nl.length ≠ 1 →
        extractCiteKeys (.macroNode nm (some (argspec, argnlist))) =
          .error "Invalid citation key node") := by
  refine ⟨?_, fun nm => rfl, ?_, ?_, ?_⟩
  · intro nm argspec argnlist parts h1 h2 h3 h4 h5
    have hsplit : (String.mk ([','].intercalate parts)).data.splitOn ',' = parts :=
      List.splitOn_intercalate parts ',' h5 h4
    simp only [extractCiteKeys, if_pos h1, if_pos h2, h3]
    simp [hsplit]
  · intro nm argspec argnlist h1
    simp only [extractCiteKeys, if_neg h1]
  · intro nm argspec argnlist h1 h2
    simp only [extractCiteKeys, if_pos h1, if_neg h2]
  · intro nm argspec argnlist nl h1 h2 h3 h4
    simp only [extractCiteKeys, if_pos h1, if_pos h2, h3]
    match nl, h4 with
    | [], _ => rfl
    | a :: b :: l, _ => rfl
    | [a], h4 => exact absurd rfl h4

theorem C3_citation_key_extraction_witness :
    (∀ p ∈ [['a'], [' ', 'b']], ',' ∉ p) ∧
      extractCiteKeys (.macroNode "cite" (some ([lbraceChar],
          [some (.groupNode
            [.charsNode (String.mk ([','].intercalate [['a'], [' ', 'b']]))])]))) =
        .ok (([['a'], [' ', 'b']].map (fun cs => trimStr (String.mk cs))).toFinset) :=
  ⟨by decide, C3_citation_key_extraction.1 "cite" [lbraceChar]
    [some (.groupNode [.charsNode (String.mk ([','].intercalate [['a'], [' ', 'b']]))])]
    [['a'], [' ', 'b']] (by decide) (by decide) rfl (by decide) (by decide)⟩

/-- A key contributed by a leaf of a figure environment's node list:
either the key of an `includegraphics` macro child, a key contributed by a
nested `subfigure` environment (recursively), or a key contributed by a
later sibling. -/
inductive FigLeafKey : List LatexNode → String → Prop where
  | includeHere (mn : String) (args : Option (List Char × List (Option LatexNode)))
      (rest : List LatexNode) (k : String) :
      mn = "includegraphics" →
      extractIncludegraphicsKey (.macroNode mn args) = .ok k →
      FigLeafKey (.macroNode mn args :: rest) k
  | subfig (en : String) (nl rest : List LatexNode) (k : String) :
      en = "subfigure" → FigLeafKey nl k → FigLeafKey (.envNode en nl :: rest) k
  | later (n : LatexNode) (rest : List LatexNode) (k : String) :
      FigLeafKey rest k → FigLeafKey (n :: rest) k

theorem extractFigKeys_mem (ns : List LatexNode) :
    ∀ S : Finset String, extractFigKeys ns = .ok S →
      ∀ k, (k ∈ S ↔ FigLeafKey ns k) := by
  induction ns using extractFigKeys.induct with
  | case1 =>
    intro S h k
    obtain rfl : (∅ : Finset String) = S := by simpa [extractFigKeys] using h
    simp only [Finset.not_mem_empty, false_iff]
    intro hc
    cases hc
  | case2 nl rest e he ih =>
    intro S h k
    simp [extractFigKeys, he] at h
  | case3 nl rest s1 hnl e he ih1 ih2 =>
    intro S h k
    simp [extractFigKeys, hnl, he] at h
  | case4 nl rest s1 hnl s2 hrest ih1 ih2 =>
    intro S h k
    have hS : s1 ∪ s2 = S := by simpa [extractFigKeys, hnl, hrest] using h
    subst hS
    rw [Finset.mem_union]
    constructor
    · rintro (hk | hk)
      · exact .subfig _ _ _ _ rfl ((ih1 s1 hnl k).mp hk)
      · exact .later _ _ _ ((ih2 s2 hrest k).mp hk)
    · intro hk
      cases hk with
      | subfig _ _ _ _ _ hnlk => exact Or.inl ((ih1 s1 hnl k).mpr hnlk)
      | later _ _ _ hrk => exact Or.inr ((ih2 s2 hrest k).mpr hrk)
  | case5 en nl rest hne ih =>
    intro S h k
    simp only [extractFigKeys, if_neg hne] at h
    rw [ih S h k]
    constructor
    · exact fun hk => .later _ _ _ hk
    · intro hk
      cases hk with
      | subfig _ _ _ _ he _ => exact absurd he hne
      | later _ _ _ hrk => exact hrk
  | case6 args rest e he =>
    intro S h k
    simp [extractFigKeys, he] at h
  | case7 args rest k0 e hrest hok ih =>
    intro S h k
    simp [extractFigKeys, hok, hrest] at h
  | case8 args rest k0 s2 hrest hok ih =>
    intro S h k
    have hS : insert k0 s2 = S := by simpa [extractFigKeys, hok, hrest] using h
    subst hS
    rw [Finset.mem_insert]
    constructor
    · rintro (rfl | hk)
      · exact .includeHere _ _ _ _ rfl hok
      · exact .later _ _ _ ((ih s2 hrest k).mp hk)
    · intro hk
      cases hk with
      | includeHere _ _ _ _ _ hk2 =>
        rw [hok] at hk2
        cases hk2
        exact Or.inl rfl
      | later _ _ _ hrk => exact Or.inr ((ih s2 hrest k).mpr hrk)
  | case9 mn args rest hne ih =>
    intro S h k
    simp only [extractFigKeys, if_neg hne] at h
    rw [ih S h k]
    constructor
    · exact fun hk => .later _ _ _ hk
    · intro hk
      cases hk with
      | includeHere _ _ _ _ he _ => exact absurd he hne
      | later _ _ _ hrk => exact hrk
  | case10 head rest henv hmac ih =>
    intro S h k
    have hrest : extractFigKeys rest = .ok S := by
      cases head with
      | charsNode s => simpa [extractFigKeys] using h
      | groupNode nl => simpa [extractFigKeys] using h
      | macroNode mn args => exact absurd rfl (hmac mn args)
      | envNode en nl => exact absurd rfl (henv en nl)
    rw [ih S hrest k]
    constructor
    · exact fun hk => .later _ _ _ hk
    · intro hk
      cases head with
      | charsNode s =>
        cases hk with
        | later _ _ _ hrk => exact hrk
      | groupNode nl =>
        cases hk with
        | later _ _ _ hrk => exact hrk
      | macroNode mn args => exact absurd rfl (hmac mn args)
      | envNode en nl => exact absurd rfl (henv en nl)

/-- **C4.** Figure key extraction returns exactly the union of the
`includegraphics` keys of all leaves, recursing through arbitrarily nested
`subfigure` environments (membership in the result is equivalent to being a
leaf key; the `Finset` result neither loses nor duplicates keys); each key
is the macro's single bracketed chars argument taken verbatim; malformed
`includegraphics` macros raise errors exactly like malformed citations. -/
theorem C4_figure_key_extraction :
    (∀ (ns : List LatexNode) (S : Finset String), extractFigKeys ns = .ok S →
      ∀ k, (k ∈ S ↔ FigLeafKey ns k))
    ∧ (∀ (en : String) (nl : List LatexNode),
        extractFigEnvKeys (.envNode en nl) = extractFigKeys nl)
    ∧ (∀ (nm : String) (argspec : List Char) (argnlist : List (Option LatexNode))
        (s : String),
        lbraceChar ∈ argspec → argspec.length = argnlist.length →
        argnlist[argspec.indexOf lbraceChar]? = some (some (.groupNode [.charsNode s])) →
        extractIncludegraphicsKey (.macroNode nm (some (argspec, argnlist))) = .ok s)
    ∧ (∀ nm : String, extractIncludegraphicsKey (.macroNode nm none) =
        .error "No arguments found in includegraphics node")
    ∧ (∀ (nm : String) (argspec : List Char) (argnlist : List (Option LatexNode)),
        lbraceChar ∉ argspec →
        extractIncludegraphicsKey (.macroNode nm (some (argspec, argnlist))) =
          .error "Invalid includegraphics node argspec")
    ∧ (∀ (nm : String) (argspec : List Char) (argnlist : List (Option LatexNode)),
        lbraceChar ∈ argspec → argspec.length ≠ argnlist.length →
        extractIncludegraphicsKey (.macroNode nm (some (argspec, argnlist))) =
          .error "Mismatch between argspec and arguments")
    ∧ (∀ (nm : String) (argspec : List Char) (argnlist : List (Option LatexNode))
        (nl : List LatexNode),
        lbraceChar ∈ argspec → argspec.length = argnlist.length →
        argnlist[argspec.indexOf lbraceChar]? = some (some (.groupNode nl)) →
        nl.length ≠ 1 →
        extractIncludegraphicsKey (.macroNode nm (some (argspec, argnlist))) =
          .error "Invalid key group")
    ∧ (∀ rest : List LatexNode,
        extractFigKeys (.macroNode "includegraphics" none :: rest) =
          .error "No arguments found in includegraphics node") := by
  refine ⟨extractFigKeys_mem, fun en nl => rfl, ?_, fun nm => rfl, ?_, ?_, ?_, ?_⟩
  · intro nm argspec argnlist s h1 h2 h3
    simp only [extractIncludegraphicsKey, if_pos h1, if_pos h2, h3]
  · intro nm argspec argnlist h1
    simp only [extractIncludegraphicsKey, if_neg h1]
  · intro nm argspec argnlist h1 h2
    simp only [extractIncludegraphicsKey, if_pos h1, if_neg h2]
  · intro nm argspec argnlist nl h1 h2 h3 h4
    simp only [extractIncludegraphicsKey, if_pos h1, if_pos h2, h3]
    match nl, h4 with
    | [], _ => rfl
    | a :: b :: l, _ => rfl
    | [a], h4 => exact absurd rfl h4
  · intro rest
    simp [extractFigKeys, extractIncludegraphicsKey]

theorem C4_figure_key_extraction_witness :
    extractFigKeys
        [.envNode "subfigure"
          [.macroNode "includegraphics"
            (some ([lbraceChar], [some (.groupNode [.charsNode "f1.png"])]))],
         .macroNode "includegraphics"
          (some ([lbraceChar], [some (.groupNode [.charsNode "f2.png"])]))] =
      .ok ({"f1.png", "f2.png"} : Finset String) ∧
    (("f1.png" : String) ∈ ({"f1.png", "f2.png"} : Finset String) ↔
      FigLeafKey
        [.envNode "subfigure"
          [.macroNode "includegraphics"
            (some ([lbraceChar], [some (.groupNode [.charsNode "f1.png"])]))],
         .macroNode "includegraphics"
          (some ([lbraceChar], [some (.groupNode [.charsNode "f2.png"])]))] "f1.png") :=
  ⟨by
    simp only [extractFigKeys, extractIncludegraphicsKey]
    decide,
   C4_figure_key_extraction.1 _ _
    (by
      simp only [extractFigKeys, extractIncludegraphicsKey]
      decide) "f1.png"⟩

/-! ### Case lemmas for the per-key and per-reference resolution steps -/

theorem resolveKey_marked_cache (cache manual : List BibEntry) (k : String) (e : BibEntry)
    (hm : isMarked k = true) (hc : lookupBib cache (stripKey k) = some e) :
    resolveKey cache manual k = .entry e := by
  unfold resolveKey
  rw [hm, if_pos rfl, hc]

theorem resolveKey_marked_manual (cache manual : List BibEntry) (k : String) (e : BibEntry)
    (hm : isMarked k = true) (hc : lookupBib cache (stripKey k) = none)
    (hman : lookupBib manual (stripKey k) = some e) :
    resolveKey cache manual k = .entry e := by
  unfold resolveKey
  rw [hm, if_pos rfl, hc, hman]

theorem resolveKey_marked_pull (cache manual : List BibEntry) (k : String)
    (hm : isMarked k = true) (hc : lookupBib cache (stripKey k) = none)
    (hman : lookupBib manual (stripKey k) = none) :
    resolveKey cache manual k = .pull (stripKey k) := by
  unfold resolveKey
  rw [hm, if_pos rfl, hc, hman]

theorem resolveKey_plain_manual (cache manual : List BibEntry) (k : String) (e : BibEntry)
    (hm : isMarked k = false) (hman : lookupBib manual k = some e) :
    resolveKey cache manual k = .entry e := by
  unfold resolveKey
  rw [hm, if_neg (by simp), hman]

theorem resolveKey_plain_cache (cache manual : List BibEntry) (k : String) (e : BibEntry)
    (hm : isMarked k = false) (hman : lookupBib manual k = none)
    (hc : lookupBib cache k = some e) :
    resolveKey cache manual k = .entry e := by
  unfold resolveKey
  rw [hm, if_neg (by simp), hman, hc]

theorem resolveKey_plain_missing (cache manual : List BibEntry) (k : String)
    (hm : isMarked k = false) (hman : lookupBib manual k = none)
    (hc : lookupBib cache k = none) :
    resolveKey cache manual k = .missing k := by
  unfold resolveKey
  rw [hm, if_neg (by simp), hman, hc]

theorem resolveKey_pullPart_props (cache manual : List BibEntry) (k q : String)
    (h : (resolveKey cache manual k).pullPart = some q) :
    isMarked k = true ∧ q = stripKey k ∧ lookupBib cache q = none ∧
      lookupBib manual q = none := by
  unfold resolveKey at h
  cases hm : isMarked k <;> rw [hm] at h
  · simp only [Bool.false_eq_true, if_false] at h
    cases hman : lookupBib manual k <;> rw [hman] at h
    · cases hc : lookupBib cache k <;> rw [hc] at h <;>
        simp [KeyRes.pullPart] at h
    · simp [KeyRes.pullPart] at h
  · simp only [if_true] at h
    cases hc : lookupBib cache (stripKey k) <;> rw [hc] at h
    · cases hman : lookupBib manual (stripKey k) <;> rw [hman] at h
      · simp only [KeyRes.pullPart, Option.some.injEq] at h
        exact ⟨rfl, h.symm, h ▸ hc, h ▸ hman⟩
      · simp [KeyRes.pullPart] at h
    · simp [KeyRes.pullPart] at h

theorem resolveKey_missPart_props (cache manual : List BibEntry) (k q : String)
    (h : (resolveKey cache manual k).missPart = some q) :
    q = k ∧ isMarked k = false ∧ lookupBib manual k = none ∧
      lookupBib cache k = none := by
  rcases Bool.eq_false_or_eq_true (isMarked k) with hm | hm
  · rcases Option.eq_none_or_eq_some (lookupBib cache (stripKey k)) with hc | ⟨e, hc⟩
    · rcases Option.eq_none_or_eq_some (lookupBib manual (stripKey k)) with hman | ⟨e, hman⟩
      · rw [resolveKey_marked_pull cache manual k hm hc hman] at h
        simp [KeyRes.missPart] at h
      · rw [resolveKey_marked_manual cache manual k e hm hc hman] at h
        simp [KeyRes.missPart] at h
    · rw [resolveKey_marked_cache cache manual k e hm hc] at h
      simp [KeyRes.missPart] at h
  · rcases Option.eq_none_or_eq_some (lookupBib manual k) with hman | ⟨e, hman⟩
    · rcases Option.eq_none_or_eq_some (lookupBib cache k) with hc | ⟨e, hc⟩
      · rw [resolveKey_plain_missing cache manual k hm hman hc] at h
        simp only [KeyRes.missPart, Option.some.injEq] at h
        exact ⟨h.symm, hm, hman, hc⟩
      · rw [resolveKey_plain_cache cache manual k e hm hman hc] at h
        simp [KeyRes.missPart] at h
    · rw [resolveKey_plain_manual cache manual k e hm hman] at h
      simp [KeyRes.missPart] at h

theorem resolveFig_found_copy (C : List FigureSpec) (d b : String) (p : String × String)
    (fig : FigureSpec) (lp : String) (hf : aliasToFigure C p.1 = some fig)
    (hl : fig.local_path = some lp) :
    resolveFig C d b p = .copy (lp, b ++ "/" ++ p.2) := by
  unfold resolveFig
  simp only [hf, hl]

theorem resolveFig_found_missing (C : List FigureSpec) (d b : String) (p : String × String)
    (fig : FigureSpec) (hf : aliasToFigure C p.1 = some fig)
    (hl : fig.local_path = none) :
    resolveFig C d b p = .missing p.1 := by
  unfold resolveFig
  simp only [hf, hl]

theorem resolveFig_url (C : List FigureSpec) (d b : String) (p : String × String)
    (hf : aliasToFigure C p.1 = none) (hu : urlValid p.1 = true) :
    resolveFig C d b p = .download (downloadSpec d p.1 p.2) := by
  unfold resolveFig
  simp [hf, hu]

theorem resolveFig_nourl_missing (C : List FigureSpec) (d b : String) (p : String × String)
    (hf : aliasToFigure C p.1 = none) (hu : urlValid p.1 = false) :
    resolveFig C d b p = .missing p.1 := by
  unfold resolveFig
  simp [hf, hu]

theorem resolveFig_missPart_props (C : List FigureSpec) (d b : String) (p : String × String)
    (q : String) (h : (resolveFig C d b p).missPart = some q) :
    q = p.1 ∧ ((∃ fig, aliasToFigure C p.1 = some fig ∧ fig.local_path = none)
      ∨ (aliasToFigure C p.1 = none ∧ urlValid p.1 = false)) := by
  rcases Option.eq_none_or_eq_some (aliasToFigure C p.1) with hf | ⟨fig, hf⟩
  · rcases Bool.eq_false_or_eq_true (urlValid p.1) with hu | hu
    · rw [resolveFig_url C d b p hf hu] at h
      simp [FigRes.missPart] at h
    · rw [resolveFig_nourl_missing C d b p hf hu] at h
      simp only [FigRes.missPart, Option.some.injEq] at h
      exact ⟨h.symm, Or.inr ⟨hf, hu⟩⟩
  · rcases Option.eq_none_or_eq_some fig.local_path with hl | ⟨lp, hl⟩
    · rw [resolveFig_found_missing C d b p fig hf hl] at h
      simp only [FigRes.missPart, Option.some.injEq] at h
      exact ⟨h.symm, Or.inl ⟨fig, hf, hl⟩⟩
    · rw [resolveFig_found_copy C d b p fig lp hf hl] at h
      simp [FigRes.missPart] at h

theorem resolveFig_dlPart_props (C : List FigureSpec) (d b : String) (p : String × String)
    (f : FigureSpec) (h : (resolveFig C d b p).dlPart = some f) :
    f = downloadSpec d p.1 p.2 ∧ aliasToFigure C p.1 = none ∧ urlValid p.1 = true := by
  rcases Option.eq_none_or_eq_some (aliasToFigure C p.1) with hf | ⟨fig, hf⟩
  · rcases Bool.eq_false_or_eq_true (urlValid p.1) with hu | hu
    · rw [resolveFig_url C d b p hf hu] at h
      simp only [FigRes.dlPart, Option.some.injEq] at h
      exact ⟨h.symm, hf, hu⟩
    · rw [resolveFig_nourl_missing C d b p hf hu] at h
      simp [FigRes.dlPart] at h
  · rcases Option.eq_none_or_eq_some fig.local_path with hl | ⟨lp, hl⟩
    · rw [resolveFig_found_missing C d b p fig hf hl] at h
      simp [FigRes.dlPart] at h
    · rw [resolveFig_found_copy C d b p fig lp hf hl] at h
      simp [FigRes.dlPart] at h

/-- **C1.** Bibliography resolution order.  For every observed key: a
DOI-marked key (containing `'@'`) has its stripped form looked up first in
the cache, then in the manual set, and is queued for remote fetch only when
absent from both; a plain key is looked up first in the manual set (manual
precedence), then in the cache, and when absent from both it is recorded as
missing; every queued reference arises from a DOI-marked key whose stripped
form is absent from both sets, so a plain key is never queued. -/
theorem C1_resolution_order :
    ∀ (cache manual : List BibEntry) (keys : List String),
      (∀ k ∈ keys, isMarked k = true →
        (∀ e, lookupBib cache (stripKey k) = some e →
          e ∈ (reconcileLoop cache manual keys).1)
        ∧ (lookupBib cache (stripKey k) = none →
            ∀ e, lookupBib manual (stripKey k) = some e →
              e ∈ (reconcileLoop cache manual keys).1)
        ∧ (lookupBib cache (stripKey k) = none → lookupBib manual (stripKey k) = none →
            stripKey k ∈ (reconcileLoop cache manual keys).2.1))
      ∧ (∀ k ∈ keys, isMarked k = false →
        (∀ e, lookupBib manual k = some e → e ∈ (reconcileLoop cache manual keys).1)
        ∧ (lookupBib manual k = none →
            ∀ e, lookupBib cache k = some e → e ∈ (reconcileLoop cache manual keys).1)
        ∧ (lookupBib manual k = none → lookupBib cache k = none →
            k ∈ (reconcileLoop cache manual keys).2.2))
      ∧ (∀ q ∈ (reconcileLoop cache manual keys).2.1,
          ∃ k ∈ keys, isMarked k = true ∧ q = stripKey k ∧
            lookupBib cache q = none ∧ lookupBib manual q = none) := by
  intro cache manual keys
  rw [reconcileLoop_eq]
  refine ⟨?_, ?_, ?_⟩
  · intro k hk hm
    refine ⟨?_, ?_, ?_⟩
    · intro e he
      exact List.mem_filterMap.mpr ⟨k, hk, by
        rw [resolveKey_marked_cache cache manual k e hm he]; rfl⟩
    · intro hc e he
      exact List.mem_filterMap.mpr ⟨k, hk, by
        rw [resolveKey_marked_manual cache manual k e hm hc he]; rfl⟩
    · intro hc hman
      exact List.mem_filterMap.mpr ⟨k, hk, by
        rw [resolveKey_marked_pull cache manual k hm hc hman]; rfl⟩
  · intro k hk hm
    refine ⟨?_, ?_, ?_⟩
    · intro e he
      exact List.mem_filterMap.mpr ⟨k, hk, by
        rw [resolveKey_plain_manual cache manual k e hm he]; rfl⟩
    · intro hman e he
      exact List.mem_filterMap.mpr ⟨k, hk, by
        rw [resolveKey_plain_cache cache manual k e hm hman he]; rfl⟩
    · intro hman hc
      exact List.mem_filterMap.mpr ⟨k, hk, by
        rw [resolveKey_plain_missing cache manual k hm hman hc]; rfl⟩
  · intro q hq
    obtain ⟨k, hk, hr⟩ := List.mem_filterMap.mp hq
    obtain ⟨h1, h2, h3, h4⟩ := resolveKey_pullPart_props cache manual k q hr
    exact ⟨k, hk, h1, h2, h3, h4⟩

theorem C1_resolution_order_witness :
    ("a" : String) ∈ ["a"] ∧ isMarked "a" = false ∧
      (∀ e, lookupBib [⟨"a", "M"⟩] "a" = some e →
        e ∈ (reconcileLoop [⟨"a", "C"⟩] [⟨"a", "M"⟩] ["a"]).1) := by
  refine ⟨by decide, by decide, ?_⟩
  exact ((C1_resolution_order [⟨"a", "C"⟩] [⟨"a", "M"⟩] ["a"]).2.1
    "a" (by decide) (by decide)).1

/-- **C2.** For both reconcilers: when at least one observed key or
reference is unresolvable, the run aborts with an error carrying the
complete missing listing (characterised below: membership in the listing is
exactly unresolvability), and issues no remote fetch/download request. -/
theorem C2_missing_aborts :
    (∀ (cache manual : List BibEntry) (keys : List String) (fetch : String → String),
      (reconcileLoop cache manual keys).2.2 ≠ [] →
      (reconcileCitations cache manual keys fetch).result =
        .error (reconcileLoop cache manual keys).2.2
      ∧ (reconcileCitations cache manual keys fetch).requests = []
      ∧ (∀ k, k ∈ (reconcileLoop cache manual keys).2.2 ↔
          (k ∈ keys ∧ isMarked k = false ∧ lookupBib manual k = none ∧
            lookupBib cache k = none)))
    ∧ (∀ (cacheFigs : List FigureSpec) (cacheDir buildDir : String)
        (refAlias : List (String × String)),
      (figLoop cacheFigs cacheDir buildDir refAlias).2.2 ≠ [] →
      (reconcileFigures cacheFigs cacheDir buildDir refAlias).result =
        .error (figLoop cacheFigs cacheDir buildDir refAlias).2.2
      ∧ (reconcileFigures cacheFigs cacheDir buildDir refAlias).downloads = []
      ∧ (∀ r, r ∈ (figLoop cacheFigs cacheDir buildDir refAlias).2.2 ↔
          (∃ als, (r, als) ∈ refAlias ∧
            ((∃ fig, aliasToFigure cacheFigs r = some fig ∧ fig.local_path = none)
              ∨ (aliasToFigure cacheFigs r = none ∧ urlValid r = false))))) := by
  constructor
  · intro cache manual keys fetch hmiss
    refine ⟨?_, ?_, ?_⟩
    · unfold reconcileCitations
      rw [if_neg hmiss]
    · unfold reconcileCitations
      rw [if_neg hmiss]
    · intro k
      rw [reconcileLoop_eq]
      constructor
      · intro hk
        obtain ⟨k0, hk0, hr⟩ := List.mem_filterMap.mp hk
        obtain ⟨rfl, h2, h3, h4⟩ := resolveKey_missPart_props cache manual k0 k hr
        exact ⟨hk0, h2, h3, h4⟩
      · rintro ⟨hk, h2, h3, h4⟩
        exact List.mem_filterMap.mpr ⟨k, hk, by
          rw [resolveKey_plain_missing cache manual k h2 h3 h4]; rfl⟩
  · intro cacheFigs cacheDir buildDir refAlias hmiss
    refine ⟨?_, ?_, ?_⟩
    · unfold reconcileFigures
      rw [if_neg hmiss]
    · unfold reconcileFigures
      rw [if_neg hmiss]
    · intro r
      rw [figLoop_eq]
      constructor
      · intro hr
        obtain ⟨p, hp, hres⟩ := List.mem_filterMap.mp hr
        obtain ⟨rfl, hcase⟩ := resolveFig_missPart_props cacheFigs cacheDir buildDir p r hres
        exact ⟨p.2, by simpa using hp, hcase⟩
      · rintro ⟨als, hp, hcase⟩
        refine List.mem_filterMap.mpr ⟨(r, als), hp, ?_⟩
        rcases hcase with ⟨fig, hf, hl⟩ | ⟨hf, hu⟩
        · rw [resolveFig_found_missing cacheFigs cacheDir buildDir (r, als) fig hf hl]; rfl
        · rw [resolveFig_nourl_missing cacheFigs cacheDir buildDir (r, als) hf hu]; rfl

theorem C2_missing_aborts_witness :
    ((reconcileLoop [] [] ["x"]).2.2 ≠ [] ∧
      (reconcileCitations [] [] ["x"] (fun _ => "")).result =
        .error (reconcileLoop [] [] ["x"]).2.2 ∧
      (reconcileCitations [] [] ["x"] (fun _ => "")).requests = []) ∧
    ((figLoop [] ".umb/images" "build" [("nofile", "images/nofile")]).2.2 ≠ [] ∧
      (reconcileFigures [] ".umb/images" "build" [("nofile", "images/nofile")]).result =
        .error (figLoop [] ".umb/images" "build" [("nofile", "images/nofile")]).2.2 ∧
      (reconcileFigures [] ".umb/images" "build" [("nofile", "images/nofile")]).downloads
        = []) :=
  ⟨⟨by decide,
    (C2_missing_aborts.1 [] [] ["x"] (fun _ => "") (by decide)).1,
    (C2_missing_aborts.1 [] [] ["x"] (fun _ => "") (by decide)).2.1⟩,
   ⟨by decide,
    (C2_missing_aborts.2 [] ".umb/images" "build" [("nofile", "images/nofile")]
      (by decide)).1,
    (C2_missing_aborts.2 [] ".umb/images" "build" [("nofile", "images/nofile")]
      (by decide)).2.1⟩⟩

/-! ### Idempotence machinery (claim C6) -/

theorem find?_append_left_none {α} (p : α → Bool) (l1 l2 : List α)
    (h : l1.find? p = none) : (l1 ++ l2).find? p = l2.find? p := by
  induction l1 with
  | nil => rfl
  | cons a l ih =>
    rw [List.find?_cons] at h
    cases ha : p a
    · rw [ha] at h
      rw [List.cons_append, List.find?_cons, ha]
      exact ih h
    · rw [ha] at h
      cases h

theorem find?_append_left_some {α} (p : α → Bool) (l1 l2 : List α) (v : α)
    (h : l1.find? p = some v) : (l1 ++ l2).find? p = some v := by
  induction l1 with
  | nil => cases h
  | cons a l ih =>
    rw [List.find?_cons] at h
    cases ha : p a
    · rw [ha] at h
      rw [List.cons_append, List.find?_cons, ha]
      exact ih h
    · rw [ha] at h
      rw [List.cons_append, List.find?_cons, ha]
      exact h

theorem lookupBib_append_of_ext_none (cache ext : List BibEntry) (q : String)
    (h : lookupBib ext q = none) :
    lookupBib (cache ++ ext) q = lookupBib cache q := by
  unfold lookupBib at *
  rw [List.reverse_append]
  exact find?_append_left_none _ _ _ h

theorem lookupBib_append_of_ext_some (cache ext : List BibEntry) (q : String)
    (v : BibEntry) (h : lookupBib ext q = some v) :
    lookupBib (cache ++ ext) q = some v := by
  unfold lookupBib at *
  rw [List.reverse_append]
  exact find?_append_left_some _ _ _ _ h

theorem lookupBib_newEntries_mem (pull : List String) (fetch : String → String)
    (q : String) (hq : q ∈ pull) :
    lookupBib (pull.map (fun k => (⟨k, fetch k⟩ : BibEntry))) q =
      some ⟨q, fetch q⟩ := by
  unfold lookupBib
  apply find?_eq_some_of_unique
  · rw [List.mem_reverse, List.mem_map]
    exact ⟨q, hq, rfl⟩
  · simp
  · intro x hx hpx
    rw [List.mem_reverse, List.mem_map] at hx
    obtain ⟨k, _, rfl⟩ := hx
    have : k = q := by simpa using hpx
    rw [this]

theorem lookupBib_newEntries_not_mem (pull : List String) (fetch : String → String)
    (q : String) (hq : q ∉ pull) :
    lookupBib (pull.map (fun k => (⟨k, fetch k⟩ : BibEntry))) q = none := by
  unfold lookupBib
  rw [List.find?_eq_none]
  intro x hx
  rw [List.mem_reverse, List.mem_map] at hx
  obtain ⟨k, hk, rfl⟩ := hx
  simp only [beq_iff_eq]
  intro hkq
  exact hq (hkq ▸ hk)

theorem KeyRes.entryPart_pullPart_disjoint (r : KeyRes) :
    r.entryPart = none ∨ r.pullPart = none := by
  cases r <;> simp [KeyRes.entryPart, KeyRes.pullPart]

/-- Per-key stability of bibliography resolution: after the cache has been
extended with exactly the fetched entries for the pulled references, every
previously non-missing key resolves to an entry — the same entry it
contributed before, or the fetched entry for its pulled stripped form — and
nothing is pulled or missing any more. -/
theorem resolveKey_stable (cache manual : List BibEntry) (fetch : String → String)
    (pull : List String)
    (hpull : ∀ q ∈ pull, lookupBib cache q = none ∧ lookupBib manual q = none)
    (k : String)
    (hk1 : (resolveKey cache manual k).missPart = none)
    (hk2 : ∀ q, (resolveKey cache manual k).pullPart = some q → q ∈ pull) :
    (resolveKey (cache ++ pull.map (fun q => (⟨q, fetch q⟩ : BibEntry))) manual k).entryPart
      = orElseO (resolveKey cache manual k).entryPart
          (((resolveKey cache manual k).pullPart).map (fun q => (⟨q, fetch q⟩ : BibEntry)))
    ∧ (resolveKey (cache ++ pull.map (fun q => (⟨q, fetch q⟩ : BibEntry))) manual k).pullPart
      = none
    ∧ (resolveKey (cache ++ pull.map (fun q => (⟨q, fetch q⟩ : BibEntry))) manual k).missPart
      = none := by
  rcases Bool.eq_false_or_eq_true (isMarked k) with hm | hm
  · rcases Option.eq_none_or_eq_some (lookupBib cache (stripKey k)) with hc | ⟨e, hc⟩
    · rcases Option.eq_none_or_eq_some (lookupBib manual (stripKey k)) with hman | ⟨e, hman⟩
      · have hbase := resolveKey_marked_pull cache manual k hm hc hman
        have hmem : stripKey k ∈ pull := by
          apply hk2
          rw [hbase]
          rfl
        have hlook : lookupBib (cache ++ pull.map (fun q => (⟨q, fetch q⟩ : BibEntry)))
            (stripKey k) = some ⟨stripKey k, fetch (stripKey k)⟩ :=
          lookupBib_append_of_ext_some _ _ _ _
            (lookupBib_newEntries_mem pull fetch _ hmem)
        rw [resolveKey_marked_cache _ manual k _ hm hlook, hbase]
        exact ⟨rfl, rfl, rfl⟩
      · have hbase := resolveKey_marked_manual cache manual k e hm hc hman
        have hnm : stripKey k ∉ pull := by
          intro hmem
          rw [(hpull _ hmem).2] at hman
          cases hman
        have hlook : lookupBib (cache ++ pull.map (fun q => (⟨q, fetch q⟩ : BibEntry)))
            (stripKey k) = none := by
          rw [lookupBib_append_of_ext_none _ _ _
            (lookupBib_newEntries_not_mem pull fetch _ hnm)]
          exact hc
        rw [resolveKey_marked_manual _ manual k e hm hlook hman, hbase]
        exact ⟨rfl, rfl, rfl⟩
    · have hbase := resolveKey_marked_cache cache manual k e hm hc
      have hnm : stripKey k ∉ pull := by
        intro hmem
        rw [(hpull _ hmem).1] at hc
        cases hc
      have hlook : lookupBib (cache ++ pull.map (fun q => (⟨q, fetch q⟩ : BibEntry)))
          (stripKey k) = some e := by
        rw [lookupBib_append_of_ext_none _ _ _
          (lookupBib_newEntries_not_mem pull fetch _ hnm)]
        exact hc
      rw [resolveKey_marked_cache _ manual k e hm hlook, hbase]
      exact ⟨rfl, rfl, rfl⟩
  · rcases Option.eq_none_or_eq_some (lookupBib manual k) with hman | ⟨e, hman⟩
    · rcases Option.eq_none_or_eq_some (lookupBib cache k) with hc | ⟨e, hc⟩
      · have hbase := resolveKey_plain_missing cache manual k hm hman hc
        rw [hbase] at hk1
        cases hk1
      · have hbase := resolveKey_plain_cache cache manual k e hm hman hc
        have hnm : k ∉ pull := by
          intro hmem
          rw [(hpull _ hmem).1] at hc
          cases hc
        have hlook : lookupBib (cache ++ pull.map (fun q => (⟨q, fetch q⟩ : BibEntry)))
            k = some e := by
          rw [lookupBib_append_of_ext_none _ _ _
            (lookupBib_newEntries_not_mem pull fetch _ hnm)]
          exact hc
        rw [resolveKey_plain_cache _ manual k e hm hman hlook, hbase]
        exact ⟨rfl, rfl, rfl⟩
    · have hbase := resolveKey_plain_manual cache manual k e hm hman
      rw [resolveKey_plain_manual
        (cache ++ pull.map (fun q => (⟨q, fetch q⟩ : BibEntry))) manual k e hm hman, hbase]
      exact ⟨rfl, rfl, rfl⟩

/-- Core idempotence of the bibliography resolution loop: rerunning the loop
over the cache extended with the fetched entries pulls nothing, misses
nothing, and produces (up to permutation) the previous output together with
the fetched entries. -/
theorem bib_idem_core (cache manual : List BibEntry) (keys : List String)
    (fetch : String → String)
    (hmiss : (reconcileLoop cache manual keys).2.2 = []) :
    (reconcileLoop (cache ++ (reconcileLoop cache manual keys).2.1.map
        (fun q => (⟨q, fetch q⟩ : BibEntry))) manual keys).2.1 = []
    ∧ (reconcileLoop (cache ++ (reconcileLoop cache manual keys).2.1.map
        (fun q => (⟨q, fetch q⟩ : BibEntry))) manual keys).2.2 = []
    ∧ ((reconcileLoop cache manual keys).1 ++ (reconcileLoop cache manual keys).2.1.map
        (fun q => (⟨q, fetch q⟩ : BibEntry))).Perm
      (reconcileLoop (cache ++ (reconcileLoop cache manual keys).2.1.map
        (fun q => (⟨q, fetch q⟩ : BibEntry))) manual keys).1 := by
  have hpull : ∀ q ∈ (reconcileLoop cache manual keys).2.1,
      lookupBib cache q = none ∧ lookupBib manual q = none := by
    intro q hq
    rw [reconcileLoop_eq] at hq
    obtain ⟨k, _, hr⟩ := List.mem_filterMap.mp hq
    obtain ⟨_, _, h3, h4⟩ := resolveKey_pullPart_props cache manual k q hr
    exact ⟨h3, h4⟩
  have hk1 : ∀ k ∈ keys, (resolveKey cache manual k).missPart = none := by
    rw [reconcileLoop_eq] at hmiss
    intro k hk
    rcases Option.eq_none_or_eq_some ((resolveKey cache manual k).missPart) with h | ⟨q, h⟩
    · exact h
    · exact absurd (List.filterMap_eq_nil_iff.mp hmiss k hk) (by rw [h]; simp)
  have hk2 : ∀ k ∈ keys, ∀ q, (resolveKey cache manual k).pullPart = some q →
      q ∈ (reconcileLoop cache manual keys).2.1 := by
    intro k hk q hq
    rw [reconcileLoop_eq]
    exact List.mem_filterMap.mpr ⟨k, hk, hq⟩
  have hstab := fun k (hk : k ∈ keys) =>
    resolveKey_stable cache manual fetch (reconcileLoop cache manual keys).2.1 hpull k
      (hk1 k hk) (hk2 k hk)
  refine ⟨?_, ?_, ?_⟩
  · rw [reconcileLoop_eq]
    exact List.filterMap_eq_nil_iff.mpr (fun k hk => (hstab k hk).2.1)
  · rw [reconcileLoop_eq]
    exact List.filterMap_eq_nil_iff.mpr (fun k hk => (hstab k hk).2.2)
  · have ep : (reconcileLoop cache manual keys).2.1 =
        keys.filterMap (fun k => (resolveKey cache manual k).pullPart) := by
      rw [reconcileLoop_eq]
    have eo : (reconcileLoop cache manual keys).1 =
        keys.filterMap (fun k => (resolveKey cache manual k).entryPart) := by
      rw [reconcileLoop_eq]
    have eo2 : (reconcileLoop (cache ++ (reconcileLoop cache manual keys).2.1.map
          (fun q => (⟨q, fetch q⟩ : BibEntry))) manual keys).1 =
        keys.filterMap (fun k => (resolveKey
          (cache ++ (reconcileLoop cache manual keys).2.1.map
            (fun q => (⟨q, fetch q⟩ : BibEntry))) manual k).entryPart) := by
      rw [reconcileLoop_eq]
    rw [eo, eo2, List.filterMap_congr (fun k hk => (hstab k hk).1), ep,
      List.map_filterMap]
    apply filterMap_append_orElse_perm
    intro k _
    rcases KeyRes.entryPart_pullPart_disjoint (resolveKey cache manual k) with h | h
    · exact Or.inl h
    · exact Or.inr (by rw [h]; rfl)

theorem aliasToFigure_eq_some_of_unique (figs : List FigureSpec) (r : String)
    (fig : FigureSpec) (hmem : fig ∈ figs) (halias : fig.old_alias = r)
    (huniq : ∀ g ∈ figs, g.old_alias = r → g = fig) :
    aliasToFigure figs r = some fig := by
  unfold aliasToFigure
  apply find?_eq_some_of_unique
  · rwa [List.mem_reverse]
  · simp [halias]
  · intro x hx hpx
    exact huniq x (List.mem_reverse.mp hx) (by simpa using hpx)

theorem aliasToFigure_none_iff (figs : List FigureSpec) (r : String) :
    aliasToFigure figs r = none ↔ ∀ g ∈ figs, g.old_alias ≠ r := by
  unfold aliasToFigure
  rw [List.find?_eq_none]
  constructor
  · intro h g hg
    simpa using h g (List.mem_reverse.mpr hg)
  · intro h x hx
    simpa using h x (List.mem_reverse.mp hx)

theorem aliasToFigure_some_props (figs : List FigureSpec) (r : String)
    (fig : FigureSpec) (h : aliasToFigure figs r = some fig) :
    fig ∈ figs ∧ fig.old_alias = r := by
  unfold aliasToFigure at h
  refine ⟨List.mem_reverse.mp (List.mem_of_find?_eq_some h), ?_⟩
  simpa using List.find?_some h

theorem nodup_filterMap_of_proj {α β γ} (l : List α) (f : α → Option β) (g : α → γ)
    (pr : β → γ) (hfg : ∀ a b, f a = some b → pr b = g a)
    (h : (l.map g).Nodup) : ((l.filterMap f).map pr).Nodup := by
  induction l with
  | nil => simp
  | cons a l ih =>
    have htail : (l.map g).Nodup := (List.nodup_cons.mp (by simpa using h)).2
    have hhead : g a ∉ l.map g := (List.nodup_cons.mp (by simpa using h)).1
    rw [List.filterMap_cons]
    cases hfa : f a with
    | none => exact ih htail
    | some b =>
      rw [List.map_cons, List.nodup_cons]
      refine ⟨?_, ih htail⟩
      intro hb
      obtain ⟨c, hc, hcb⟩ := List.mem_map.mp hb
      obtain ⟨x, hx, hxc⟩ := List.mem_filterMap.mp hc
      apply hhead
      rw [List.mem_map]
      exact ⟨x, hx, by rw [← hfg x c hxc, hcb, hfg a b hfa]⟩

theorem FigRes.copyPart_dlPart_disjoint (r : FigRes) :
    r.copyPart = none ∨ r.dlPart = none := by
  cases r <;> simp [FigRes.copyPart, FigRes.dlPart]

/-- Per-reference stability of figure resolution: once the cache contains
the downloaded figures (found for every reference that was queued), every
previously non-missing reference resolves to a copy — the same copy as
before, or the copy of its freshly downloaded figure — and nothing is
queued or missing any more. -/
theorem resolveFig_stable (C C1 : List FigureSpec) (d b : String) (p : String × String)
    (hk1 : (resolveFig C d b p).missPart = none)
    (hfound : ∀ fig, aliasToFigure C p.1 = some fig → aliasToFigure C1 p.1 = some fig)
    (hdl : ∀ f, (resolveFig C d b p).dlPart = some f → aliasToFigure C1 p.1 = some f) :
    (resolveFig C1 d b p).copyPart
      = orElseO (resolveFig C d b p).copyPart
          (((resolveFig C d b p).dlPart).map
            (fun f => (f.local_path.getD "", b ++ "/" ++ f.new_alias)))
    ∧ (resolveFig C1 d b p).dlPart = none
    ∧ (resolveFig C1 d b p).missPart = none := by
  rcases Option.eq_none_or_eq_some (aliasToFigure C p.1) with hf | ⟨fig, hf⟩
  · rcases Bool.eq_false_or_eq_true (urlValid p.1) with hu | hu
    · have hbase := resolveFig_url C d b p hf hu
      have h1 : aliasToFigure C1 p.1 = some (downloadSpec d p.1 p.2) :=
        hdl _ (by rw [hbase]; rfl)
      have hlp : (downloadSpec d p.1 p.2).local_path =
          some (d ++ "/" ++ pathName (urlPath p.1)) := rfl
      rw [resolveFig_found_copy C1 d b p (downloadSpec d p.1 p.2) _ h1 hlp, hbase]
      exact ⟨rfl, rfl, rfl⟩
    · have hbase := resolveFig_nourl_missing C d b p hf hu
      rw [hbase] at hk1
      cases hk1
  · rcases Option.eq_none_or_eq_some fig.local_path with hl | ⟨lp, hl⟩
    · have hbase := resolveFig_found_missing C d b p fig hf hl
      rw [hbase] at hk1
      cases hk1
    · have hbase := resolveFig_found_copy C d b p fig lp hf hl
      rw [resolveFig_found_copy C1 d b p fig lp (hfound fig hf) hl, hbase]
      exact ⟨rfl, rfl, rfl⟩

/-- Core idempotence of the figure resolution loop: rerunning the loop over
the cache merged with the downloaded figures queues nothing, misses nothing,
and performs (up to permutation) the previous loop copies together with the
copies of the downloaded figures. -/
theorem fig_idem_core (C : List FigureSpec) (d b : String)
    (refs : List (String × String))
    (hC : (C.map (fun f => f.old_alias)).Nodup)
    (hrefs : (refs.map Prod.fst).Nodup)
    (hmiss : (figLoop C d b refs).2.2 = []) :
    (figLoop (figAdd C (figLoop C d b refs).2.1) d b refs).2.1 = []
    ∧ (figLoop (figAdd C (figLoop C d b refs).2.1) d b refs).2.2 = []
    ∧ ((figLoop C d b refs).1 ++ (figLoop C d b refs).2.1.map
        (fun f => (f.local_path.getD "", b ++ "/" ++ f.new_alias))).Perm
      (figLoop (figAdd C (figLoop C d b refs).2.1) d b refs).1 := by
  have hdl_mem : ∀ f ∈ (figLoop C d b refs).2.1, ∃ p, p ∈ refs ∧
      f = downloadSpec d p.1 p.2 ∧ aliasToFigure C p.1 = none ∧ urlValid p.1 = true := by
    intro f hf
    rw [figLoop_eq] at hf
    obtain ⟨p, hp, hr⟩ := List.mem_filterMap.mp hf
    obtain ⟨h1, h2, h3⟩ := resolveFig_dlPart_props C d b p f hr
    exact ⟨p, hp, h1, h2, h3⟩
  have hdl_nodup : ((figLoop C d b refs).2.1.map (fun f => f.old_alias)).Nodup := by
    have e : (figLoop C d b refs).2.1 =
        refs.filterMap (fun p => (resolveFig C d b p).dlPart) := by
      rw [figLoop_eq]
    rw [e]
    exact nodup_filterMap_of_proj refs (fun p => (resolveFig C d b p).dlPart) Prod.fst
      (fun f => f.old_alias)
      (fun p f hf => by
        obtain ⟨rfl, _, _⟩ := resolveFig_dlPart_props C d b p f hf
        rfl)
      hrefs
  have hfound : ∀ (r : String) (fig : FigureSpec), aliasToFigure C r = some fig →
      aliasToFigure (figAdd C (figLoop C d b refs).2.1) r = some fig := by
    intro r fig hf
    obtain ⟨hmem, halias⟩ := aliasToFigure_some_props C r fig hf
    apply aliasToFigure_eq_some_of_unique
    · exact (mem_figAdd _ _ _).mpr (List.mem_append_left _ hmem)
    · exact halias
    · intro g hg hga
      rcases List.mem_append.mp ((mem_figAdd _ _ _).mp hg) with hgC | hgDL
      · exact List.inj_on_of_nodup_map hC hgC hmem (by rw [hga, halias])
      · exfalso
        obtain ⟨p, _, rfl, hnone, _⟩ := hdl_mem g hgDL
        have hne := (aliasToFigure_none_iff C p.1).mp hnone fig hmem
        exact hne (by rw [halias, ← hga]; rfl)
  have hdlC1 : ∀ p ∈ refs, ∀ f, (resolveFig C d b p).dlPart = some f →
      aliasToFigure (figAdd C (figLoop C d b refs).2.1) p.1 = some f := by
    intro p hp f hdlf
    obtain ⟨rfl, hnone, hurl⟩ := resolveFig_dlPart_props C d b p f hdlf
    have hfDL : downloadSpec d p.1 p.2 ∈ (figLoop C d b refs).2.1 := by
      rw [figLoop_eq]
      exact List.mem_filterMap.mpr ⟨p, hp, hdlf⟩
    apply aliasToFigure_eq_some_of_unique
    · exact (mem_figAdd _ _ _).mpr (List.mem_append_right _ hfDL)
    · rfl
    · intro g hg hga
      rcases List.mem_append.mp ((mem_figAdd _ _ _).mp hg) with hgC | hgDL
      · exact absurd hga ((aliasToFigure_none_iff C p.1).mp hnone g hgC)
      · exact List.inj_on_of_nodup_map hdl_nodup hgDL hfDL hga
  have hk1 : ∀ p ∈ refs, (resolveFig C d b p).missPart = none := by
    rw [figLoop_eq] at hmiss
    intro p hp
    rcases Option.eq_none_or_eq_some ((resolveFig C d b p).missPart) with h | ⟨q, h⟩
    · exact h
    · exact absurd (List.filterMap_eq_nil_iff.mp hmiss p hp) (by rw [h]; simp)
  have hstab := fun p (hp : p ∈ refs) =>
    resolveFig_stable C (figAdd C (figLoop C d b refs).2.1) d b p
      (hk1 p hp) (fun fig hf => hfound p.1 fig hf) (fun f hf => hdlC1 p hp f hf)
  refine ⟨?_, ?_, ?_⟩
  · have e : (figLoop (figAdd C (figLoop C d b refs).2.1) d b refs).2.1 =
        refs.filterMap (fun p =>
          (resolveFig (figAdd C (figLoop C d b refs).2.1) d b p).dlPart) := by
      rw [figLoop_eq]
    rw [e]
    exact List.filterMap_eq_nil_iff.mpr (fun p hp => (hstab p hp).2.1)
  · have e : (figLoop (figAdd C (figLoop C d b refs).2.1) d b refs).2.2 =
        refs.filterMap (fun p =>
          (resolveFig (figAdd C (figLoop C d b refs).2.1) d b p).missPart) := by
      rw [figLoop_eq]
    rw [e]
    exact List.filterMap_eq_nil_iff.mpr (fun p hp => (hstab p hp).2.2)
  · have ep : (figLoop C d b refs).2.1 =
        refs.filterMap (fun p => (resolveFig C d b p).dlPart) := by
      rw [figLoop_eq]
    have eo : (figLoop C d b refs).1 =
        refs.filterMap (fun p => (resolveFig C d b p).copyPart) := by
      rw [figLoop_eq]
    have eo2 : (figLoop (figAdd C (figLoop C d b refs).2.1) d b refs).1 =
        refs.filterMap (fun p =>
          (resolveFig (figAdd C (figLoop C d b refs).2.1) d b p).copyPart) := by
      rw [figLoop_eq]
    rw [eo, eo2, List.filterMap_congr (fun p hp => (hstab p hp).1), ep,
      List.map_filterMap]
    apply filterMap_append_orElse_perm
    intro p _
    rcases FigRes.copyPart_dlPart_disjoint (resolveFig C d b p) with h | h
    · exact Or.inl h
    · exact Or.inr (by rw [h]; rfl)

/-- **C6.** Reconciliation is idempotent for both reconcilers.  If a run
succeeds, a second run over the persisted cache it produced, with the same
observed keys/references, succeeds with the same resulting cache (no entry
is added), issues no remote request, and yields the same resolved output —
the same output library up to permutation for the bibliography, the same
set of build-directory copies up to permutation for figures.  (The figure
cache and the reference map are assumed well-formed: old aliases of distinct
cache entries differ, and observed references are a map, as produced by the
program itself.) -/
theorem C6_reconcile_idempotent :
    (∀ (cache manual : List BibEntry) (keys : List String) (fetch : String → String)
        (out1 cache1 : List BibEntry),
      (reconcileCitations cache manual keys fetch).result = .ok (out1, cache1) →
      ∃ out2, (reconcileCitations cache1 manual keys fetch).result = .ok (out2, cache1)
        ∧ out2.Perm out1
        ∧ (reconcileCitations cache1 manual keys fetch).requests = [])
    ∧ (∀ (cacheFigs : List FigureSpec) (cacheDir buildDir : String)
        (refAlias : List (String × String)) (cache1 : List FigureSpec),
      (cacheFigs.map (fun f => f.old_alias)).Nodup →
      (refAlias.map Prod.fst).Nodup →
      (reconcileFigures cacheFigs cacheDir buildDir refAlias).result = .ok cache1 →
      (reconcileFigures cache1 cacheDir buildDir refAlias).result = .ok cache1
        ∧ (reconcileFigures cache1 cacheDir buildDir refAlias).downloads = []
        ∧ (reconcileFigures cache1 cacheDir buildDir refAlias).copies.Perm
            (reconcileFigures cacheFigs cacheDir buildDir refAlias).copies) := by
  constructor
  · intro cache manual keys fetch out1 cache1 hok
    by_cases hmiss : (reconcileLoop cache manual keys).2.2 = []
    · by_cases hpull : (reconcileLoop cache manual keys).2.1 = []
      · have h1 : (reconcileCitations cache manual keys fetch).result =
            .ok ((reconcileLoop cache manual keys).1, cache) := by
          unfold reconcileCitations
          rw [if_pos hmiss, if_pos hpull]
        rw [h1] at hok
        have h2 : (reconcileLoop cache manual keys).1 = out1 ∧ cache = cache1 := by
          have := hok
          simp only [Except.ok.injEq, Prod.mk.injEq] at this
          exact this
        obtain ⟨ho, hc⟩ := h2
        subst hc
        refine ⟨out1, ?_, List.Perm.refl _, ?_⟩
        · rw [h1, ho]
        · unfold reconcileCitations
          rw [if_pos hmiss, if_pos hpull]
      · have h1 : (reconcileCitations cache manual keys fetch).result =
            .ok ((reconcileLoop cache manual keys).1 ++
              (reconcileLoop cache manual keys).2.1.map (fun k => ⟨k, fetch k⟩),
              cache ++ (reconcileLoop cache manual keys).2.1.map (fun k => ⟨k, fetch k⟩)) := by
          unfold reconcileCitations
          rw [if_pos hmiss, if_neg hpull]
        rw [h1] at hok
        have h2 : (reconcileLoop cache manual keys).1 ++
              (reconcileLoop cache manual keys).2.1.map (fun k => ⟨k, fetch k⟩) = out1 ∧
            cache ++ (reconcileLoop cache manual keys).2.1.map (fun k => ⟨k, fetch k⟩) =
              cache1 := by
          have := hok
          simp only [Except.ok.injEq, Prod.mk.injEq] at this
          exact this
        obtain ⟨ho, hc⟩ := h2
        obtain ⟨hp2, hm2, hperm⟩ := bib_idem_core cache manual keys fetch hmiss
        rw [hc] at hp2 hm2
        rw [hc, ho] at hperm
        refine ⟨(reconcileLoop cache1 manual keys).1, ?_, hperm.symm, ?_⟩
        · unfold reconcileCitations
          rw [if_pos hm2, if_pos hp2]
        · unfold reconcileCitations
          rw [if_pos hm2, if_pos hp2]
    · have h1 : (reconcileCitations cache manual keys fetch).result =
          .error (reconcileLoop cache manual keys).2.2 := by
        unfold reconcileCitations
        rw [if_neg hmiss]
      rw [h1] at hok
      cases hok
  · intro cacheFigs cacheDir buildDir refAlias cache1 hC hrefs hok
    by_cases hmiss : (figLoop cacheFigs cacheDir buildDir refAlias).2.2 = []
    · by_cases hdl : (figLoop cacheFigs cacheDir buildDir refAlias).2.1 = []
      · have h1 : (reconcileFigures cacheFigs cacheDir buildDir refAlias).result =
            .ok cacheFigs := by
          unfold reconcileFigures
          rw [if_pos hmiss, if_pos hdl]
        rw [h1] at hok
        have hc : cacheFigs = cache1 := by
          have := hok
          simp only [Except.ok.injEq] at this
          exact this
        subst hc
        exact ⟨h1, by
          unfold reconcileFigures
          rw [if_pos hmiss, if_pos hdl], List.Perm.refl _⟩
      · have h1 : (reconcileFigures cacheFigs cacheDir buildDir refAlias).result =
            .ok (figAdd cacheFigs (figLoop cacheFigs cacheDir buildDir refAlias).2.1) := by
          unfold reconcileFigures
          rw [if_pos hmiss, if_neg hdl]
        rw [h1] at hok
        have hc : figAdd cacheFigs (figLoop cacheFigs cacheDir buildDir refAlias).2.1 =
            cache1 := by
          have := hok
          simp only [Except.ok.injEq] at this
          exact this
        obtain ⟨hd2, hm2, hperm⟩ := fig_idem_core cacheFigs cacheDir buildDir refAlias
          hC hrefs hmiss
        rw [hc] at hd2 hm2 hperm
        have hcopies1 : (reconcileFigures cacheFigs cacheDir buildDir refAlias).copies =
            (figLoop cacheFigs cacheDir buildDir refAlias).1 ++
              (figLoop cacheFigs cacheDir buildDir refAlias).2.1.map
                (fun f => (f.local_path.getD "", buildDir ++ "/" ++ f.new_alias)) := by
          unfold reconcileFigures
          rw [if_pos hmiss, if_neg hdl]
        refine ⟨?_, ?_, ?_⟩
        · unfold reconcileFigures
          rw [if_pos hm2, if_pos hd2]
        · unfold reconcileFigures
          rw [if_pos hm2, if_pos hd2]
        · have hcopies2 : (reconcileFigures cache1 cacheDir buildDir refAlias).copies =
              (figLoop cache1 cacheDir buildDir refAlias).1 := by
            unfold reconcileFigures
            rw [if_pos hm2, if_pos hd2]
          rw [hcopies2, hcopies1]
          exact hperm.symm
    · have h1 : (reconcileFigures cacheFigs cacheDir buildDir refAlias).result =
          .error (figLoop cacheFigs cacheDir buildDir refAlias).2.2 := by
        unfold reconcileFigures
        rw [if_neg hmiss]
      rw [h1] at hok
      cases hok

theorem C6_reconcile_idempotent_witness :
    ((reconcileCitations [] [] ["@d"] (fun k => "B" ++ k)).result =
        .ok ([⟨"d", "Bd"⟩], [⟨"d", "Bd"⟩]) ∧
      ∃ out2, (reconcileCitations [⟨"d", "Bd"⟩] [] ["@d"] (fun k => "B" ++ k)).result =
          .ok (out2, [⟨"d", "Bd"⟩])
        ∧ out2.Perm [⟨"d", "Bd"⟩]
        ∧ (reconcileCitations [⟨"d", "Bd"⟩] [] ["@d"] (fun k => "B" ++ k)).requests = []) ∧
    ((reconcileFigures [] ".umb/images" "build" [("http://h/a.png", "images/a.png")]).result
        = .ok [⟨"http://h/a.png", "images/a.png", some "http://h/a.png",
            some ".umb/images/a.png"⟩] ∧
      (reconcileFigures
          [⟨"http://h/a.png", "images/a.png", some "http://h/a.png",
            some ".umb/images/a.png"⟩]
          ".umb/images" "build" [("http://h/a.png", "images/a.png")]).result =
        .ok [⟨"http://h/a.png", "images/a.png", some "http://h/a.png",
            some ".umb/images/a.png"⟩]) :=
  ⟨⟨by decide,
    C6_reconcile_idempotent.1 [] [] ["@d"] (fun k => "B" ++ k)
      [⟨"d", "Bd"⟩] [⟨"d", "Bd"⟩] (by decide)⟩,
   ⟨by decide,
    (C6_reconcile_idempotent.2 [] ".umb/images" "build"
      [("http://h/a.png", "images/a.png")]
      [⟨"http://h/a.png", "images/a.png", some "http://h/a.png",
        some ".umb/images/a.png"⟩]
      (by decide) (by decide) (by decide)).1⟩⟩

end Micromanubot
